import Mathlib

/-
Verification of the commit formatting pipeline of devmoji-log (src/commit.rs).

The embedding translates the two source files faithfully:
  * commit_emoji   — the static type→emoji table (src/commit.rs lines 144-178).
  * format_emoji   — the glyph accumulation (lines 58-92).  The Rust code
    accumulates into a std::collections::HashSet<String> and then joins the
    iteration order with single spaces.  The insertion sequence and the
    deduplication are deterministic, so they are embedded as an
    insertion-ordered duplicate-free list (formatEmojiSet); the iteration
    order of the hash set, which Rust does not guarantee to be reproducible
    between two independently seeded HashSet instances, is made explicit as
    a permutation parameter `perm` applied before joining.
  * format         — the line composition (lines 94-141), with the external
    collaborators as parameters: `parse` for git_conventional parsing,
    `registry` for emojis::get_by_shortcode, `bold`/`blue` for the colored
    crate's styling, and `spanResult` for the jiff relative-span rounding
    and printing (`none` models the rounding returning an error).
  * rustTrim / rustLines / rustSplit — the Rust str::trim, str::lines and
    str::split(char) semantics used by format, defined over the character
    lists directly.
-/

namespace DevmojiLog

/-- Structured fields extracted from a conventional commit message by the
external git_conventional parser: type, optional scope, breaking flag and
description, as read off the parsed commit in format (lines 101-104). -/
structure ConvFields where
  type_ : String
  scope : Option String
  breaking : Bool
  description : String

/-- The static type→emoji table, transcribed from commit_emoji
(src/commit.rs lines 144-178). -/
def commit_emoji (key : String) : Option String :=
  match key with
  | "add" => some "➕"
  | "android" => some "🤖"
  | "breaking" => some "💥"
  | "build" | "deps" | "dep" | "dependencies" => some "📦"
  | "chore" | "maintenance" => some "🔧"
  | "ci" | "cd" => some "👷"
  | "config" => some "⚙️"
  | "doc" | "docs" | "documentation" => some "📚"
  | "docker" => some "🐳"
  | "feat" | "feature" => some "✨"
  | "fix" => some "🐛"
  | "i18n" | "l10n" => some "🌐"
  | "kubernetes" | "k8s" => some "☸️"
  | "lint" | "linter" => some "🚨"
  | "linux" => some "🐧"
  | "macos" | "ios" => some "🍎"
  | "merge" => some "🔀"
  | "perf" | "performance" => some "⚡️"
  | "ref" | "refactor" => some "♻️"
  | "release" => some "🚀"
  | "remove" => some "➖"
  | "revert" => some "⏪"
  | "security" => some "🔒"
  | "style" => some "🎨"
  | "test" | "tests" => some "✅"
  | "typo" | "typos" => some "✏️"
  | "ui" | "ux" => some "💄"
  | "windows" => some "🏁"
  | "wip" => some "🚧"
  | _ => none

/-- HashSet::insert on the insertion-ordered view of the set: appends the
glyph unless it is already present. -/
def insertEmoji (s : List String) (g : String) : List String :=
  if g ∈ s then s else s ++ [g]

/-- Insert the glyph the registry returns for a shortcode, if any; the
no-entry case inserts nothing, mirroring get_by_shortcode(..).map(insert). -/
def addShortcode (registry : String → Option String) (s : List String)
    (code : String) : List String :=
  match registry code with
  | some g => insertEmoji s g
  | none => s

/-- Insert the static-table glyph for a key, if any (commit_emoji lookup
followed by insert, as in format_emoji lines 66-68 and 76-78). -/
def addStatic (s : List String) (key : String) : List String :=
  match commit_emoji key with
  | some g => insertEmoji s g
  | none => s

/-- The breaking-change step of format_emoji (lines 61-64): when the flag is
set, insert the glyph the registry gives for the "boom" shortcode. -/
def breakStep (registry : String → Option String) (b : Bool)
    (s : List String) : List String :=
  if b then addShortcode registry s "boom" else s

/-- The scope step of format_emoji (lines 70-79): with a scope present, try
the combined "type-scope" shortcode first; only on a miss fall back to the
static-table lookup of the scope alone. -/
def scopeStep (registry : String → Option String) (type_str : String)
    (scope : Option String) (s : List String) : List String :=
  match scope with
  | none => s
  | some scope_str =>
    match registry (type_str ++ "-" ++ scope_str) with
    | some g => insertEmoji s g
    | none => addStatic s scope_str

/-- Rust str::split(sep) over the character list: splits at every occurrence
of the separator, keeping empty segments. -/
def splitChar (sep : Char) : List Char → List (List Char)
  | [] => [[]]
  | c :: cs =>
    if c = sep then [] :: splitChar sep cs
    else
      match splitChar sep cs with
      | [] => [[c]]
      | l :: ls => (c :: l) :: ls

/-- Rust str::split(sep) at the String level. -/
def rustSplit (sep : Char) (s : String) : List String :=
  (splitChar sep s.data).map String.mk

/-- The free-text step of format_emoji (lines 81-89): split the description
on ':', discard empty segments, and insert the glyph of every segment the
registry resolves. -/
def otherStep (registry : String → Option String) (other : Option String)
    (s : List String) : List String :=
  match other with
  | none => s
  | some other_str =>
    ((rustSplit ':' other_str).filter (fun x => x ≠ "")).foldl
      (addShortcode registry) s

/-- The contents of the HashSet built by format_emoji (lines 58-92), as the
insertion-ordered duplicate-free list of glyphs: breaking step, static type
lookup, scope step, free-text step, in the source's order. -/
def formatEmojiSet (registry : String → Option String) (type_str : String)
    (scope : Option String) (other : Option String) (breaking : Bool) :
    List String :=
  otherStep registry other
    (scopeStep registry type_str scope
      (addStatic (breakStep registry breaking []) type_str))

/-- Vec::join(" "): interleave single spaces between the strings. -/
def joinSpace : List String → String
  | [] => ""
  | [x] => x
  | x :: y :: xs => x ++ " " ++ joinSpace (y :: xs)

/-- format_emoji (lines 58-92): the space-join of the hash set's iteration
order.  `perm` is the iteration order of this call's HashSet instance, an
arbitrary permutation of the accumulated elements. -/
def format_emoji (perm : List String → List String)
    (registry : String → Option String) (type_str : String)
    (scope : Option String) (other : Option String) (breaking : Bool) :
    String :=
  joinSpace (perm (formatEmojiSet registry type_str scope other breaking))

/-- Rust char::is_whitespace on the characters that can occur here: the
Unicode White_Space property. -/
def isRustWs (c : Char) : Bool :=
  c = ' ' || c = '\t' || c = '\n' || c = '\x0b' || c = '\x0c' || c = '\r' ||
  c = '\x85' || c = '\xa0' || c = '\u1680' ||
  ('\u2000' ≤ c && c ≤ '\u200A') || c = '\u2028' || c = '\u2029' ||
  c = '\u202F' || c = '\u205F' || c = '\u3000'

/-- Rust str::trim_start: drop the leading whitespace run. -/
def rustTrimLeft (s : String) : String :=
  String.mk (s.data.dropWhile isRustWs)

/-- Rust str::trim_end: drop the trailing whitespace run. -/
def rustTrimRight (s : String) : String :=
  String.mk ((s.data.reverse.dropWhile isRustWs).reverse)

/-- Rust str::trim: drop leading and trailing whitespace. -/
def rustTrim (s : String) : String :=
  rustTrimRight (rustTrimLeft s)

/-- Drop a single trailing carriage return from a line that was terminated
by a newline, as Rust str::lines does for a CRLF terminator. -/
def stripCR (l : List Char) : List Char :=
  if l.getLast? = some '\r' then l.dropLast else l

/-- Rust str::lines: split on newline characters; every segment except a
final unterminated one loses one trailing carriage return; a final empty
segment (from a trailing newline, or the empty string) is not a line. -/
def rustLines (s : String) : List String :=
  let parts := splitChar '\n' s.data
  if parts.getLast? = some ([] : List Char) then
    parts.dropLast.map (fun l => String.mk (stripCR l))
  else
    parts.dropLast.map (fun l => String.mk (stripCR l)) ++
      [String.mk (parts.getLastD [])]

/-- The expression formatted.trim().lines().next().unwrap_or_default() from
format (line 140): the first line of the trimmed string, or the empty
string when there is none. -/
def rustFirstLineD (s : String) : String :=
  (rustLines (rustTrim s)).headD ""

/-- Rust str::contains(char) over the character list. -/
def containsChar (s : String) (c : Char) : Bool :=
  s.data.contains c

/-- The `other` argument format passes to format_emoji (lines 106-111):
the whole description when it contains a ':', nothing otherwise. -/
def otherArg (description : String) : Option String :=
  if containsChar description ':' then some description else none

/-- The glyphs the spec's resolver contract produces for a raw description:
format's colon gate (lines 106-111) composed with the format_emoji
accumulation. -/
def resolveSet (registry : String → Option String) (type_str : String)
    (scope : Option String) (breaking : Bool) (description : String) :
    List String :=
  formatEmojiSet registry type_str scope (otherArg description) breaking

/-- The resolver contract of the spec over a raw description: the glyphs
of resolveSet joined in the hash set's iteration order `perm`. -/
def resolve (perm : List String → List String)
    (registry : String → Option String) (type_str : String)
    (scope : Option String) (breaking : Bool) (description : String) :
    String :=
  joinSpace (perm (resolveSet registry type_str scope breaking description))

/-- The conventional header of format (lines 116-124): type, then the
scope in parentheses rendered bold, then '!' when breaking. -/
def headerOf (bold : String → String) (cc : ConvFields) : String :=
  cc.type_ ++
    (match cc.scope with
     | some s => "(" ++ bold s ++ ")"
     | none => "") ++
    (if cc.breaking then "!" else "")

/-- The `formatted` text of format before the time suffix (lines 96-128):
the raw message, replaced by the emphasized conventional rendering exactly
when parsing succeeds and the emoji string is nonempty. -/
def composeText (parse : String → Option ConvFields)
    (registry : String → Option String) (bold blue : String → String)
    (perm : List String → List String) (message : String) : String :=
  match parse message with
  | none => message
  | some cc =>
    let emoji := format_emoji perm registry cc.type_ cc.scope
      (otherArg cc.description) cc.breaking
    if emoji = "" then message
    else blue (headerOf bold cc ++ ":") ++ " " ++ emoji ++ " " ++
      cc.description

/-- The relative-time suffix appended by format (line 138). -/
def timeSuffix (s : String) : String :=
  " (" ++ s ++ " ago)"

/-- format (lines 94-141).  `spanResult` is the result of rounding
now - timestamp to year..hour units relative to the commit timestamp and
printing it (lines 130-137); `none` models that computation failing, which
the source propagates with `?`.  On success the composed text gets the
suffix appended, is trimmed, and only the first line is kept (line 140). -/
def format (parse : String → Option ConvFields)
    (registry : String → Option String) (bold blue : String → String)
    (perm : List String → List String) (spanResult : Option String)
    (message : String) : Option String :=
  match spanResult with
  | none => none
  | some spanStr =>
    some (rustFirstLineD
      (composeText parse registry bold blue perm message ++
        timeSuffix spanStr))

/-- A concrete instance of the external shortcode registry, fixing the
gemoji entries the concrete inputs below use: boom resolves to 💥 and bug
to 🐛; every other code, in particular every combined type-scope code such
as feat-api, is absent. -/
def sampleRegistry : String → Option String := fun code =>
  if code = "boom" then some "💥"
  else if code = "bug" then some "🐛"
  else none

/-- A registry instance that resolves the combined type-scope code
fix-docs, used to exercise the combined-over-generic tie-break. -/
def combinedRegistry : String → Option String := fun code =>
  if code = "boom" then some "💥"
  else if code = "fix-docs" then some "🧷"
  else none

/-- A parser instance for messages that are not conventional commits: the
conventional grammar requires the message to start with a type token, so
messages such as a bare newline or a Merge line fail to parse. -/
def parseNone : String → Option ConvFields := fun _ => none

/-- A parser instance for the conventional message with the unknown type
zzz, no scope, no breaking marker and a plain description. -/
def parseZzz : String → Option ConvFields := fun m =>
  if m = "zzz: plain description" then
    some ⟨"zzz", none, false, "plain description"⟩
  else none

/-- A parser instance for the conventional message with type feat, scope
api, no breaking marker and the description add pagination. -/
def parseFeatApi : String → Option ConvFields := fun m =>
  if m = "feat(api): add pagination" then
    some ⟨"feat", some "api", false, "add pagination"⟩
  else none

/-- A parser instance for the conventional messages with the unknown type
zzz, description x and a multi-line body, with and without a trailing
newline: the conventional grammar parses the header line and ignores the
body. -/
def parseZzzBody : String → Option ConvFields := fun m =>
  if m = "zzz: x\n\nbody" ∨ m = "zzz: x\n\nbody\n" then
    some ⟨"zzz", none, false, "x"⟩
  else none

theorem mem_insertEmoji {s : List String} {g e : String} :
    e ∈ insertEmoji s g ↔ e ∈ s ∨ e = g := by
  by_cases h : g ∈ s
  · simp only [insertEmoji, if_pos h]
    constructor
    · exact Or.inl
    · rintro (h' | rfl)
      · exact h'
      · exact h
  · simp [insertEmoji, h, List.mem_append]

theorem mem_addShortcode {registry : String → Option String}
    {s : List String} {c e : String} :
    e ∈ addShortcode registry s c ↔ e ∈ s ∨ registry c = some e := by
  unfold addShortcode
  cases h : registry c with
  | none => simp [h]
  | some g => simp [mem_insertEmoji, h, eq_comm]

theorem mem_addStatic {s : List String} {key e : String} :
    e ∈ addStatic s key ↔ e ∈ s ∨ commit_emoji key = some e := by
  unfold addStatic
  cases h : commit_emoji key with
  | none => simp [h]
  | some g => simp [mem_insertEmoji, h, eq_comm]

theorem mem_breakStep {registry : String → Option String} {b : Bool}
    {s : List String} {e : String} :
    e ∈ breakStep registry b s ↔
      e ∈ s ∨ (b = true ∧ registry "boom" = some e) := by
  cases b <;> simp [breakStep, mem_addShortcode]

theorem mem_scopeStep {registry : String → Option String} {t : String}
    {sc : Option String} {s : List String} {e : String} :
    e ∈ scopeStep registry t sc s ↔
      e ∈ s ∨
        ∃ str, sc = some str ∧
          (registry (t ++ "-" ++ str) = some e ∨
            (registry (t ++ "-" ++ str) = none ∧
              commit_emoji str = some e)) := by
  cases sc with
  | none => simp [scopeStep]
  | some str =>
    unfold scopeStep
    cases h : registry (t ++ "-" ++ str) with
    | none => simp [mem_addStatic, h]
    | some g => simp [mem_insertEmoji, h, eq_comm]

theorem mem_foldl_addShortcode {registry : String → Option String}
    (codes : List String) (init : List String) (e : String) :
    e ∈ codes.foldl (addShortcode registry) init ↔
      e ∈ init ∨ ∃ c ∈ codes, registry c = some e := by
  induction codes generalizing init with
  | nil => simp
  | cons c cs ih =>
    simp only [List.foldl_cons, ih, mem_addShortcode, List.mem_cons]
    constructor
    · rintro ((h | h) | ⟨c', hc', h⟩)
      · exact Or.inl h
      · exact Or.inr ⟨c, Or.inl rfl, h⟩
      · exact Or.inr ⟨c', Or.inr hc', h⟩
    · rintro (h | ⟨c', hc' | hc', h⟩)
      · exact Or.inl (Or.inl h)
      · subst hc'
        exact Or.inl (Or.inr h)
      · exact Or.inr ⟨c', hc', h⟩

theorem mem_otherStep {registry : String → Option String}
    {o : Option String} {s : List String} {e : String} :
    e ∈ otherStep registry o s ↔
      e ∈ s ∨
        ∃ os, o = some os ∧
          ∃ c ∈ (rustSplit ':' os).filter (fun x => x ≠ ""),
            registry c = some e := by
  cases o with
  | none => simp [otherStep]
  | some os => simp [otherStep, mem_foldl_addShortcode]

theorem mem_formatEmojiSet {registry : String → Option String}
    {t : String} {sc : Option String} {o : Option String} {b : Bool}
    {e : String} :
    e ∈ formatEmojiSet registry t sc o b ↔
      (b = true ∧ registry "boom" = some e) ∨
      commit_emoji t = some e ∨
      (∃ str, sc = some str ∧
        (registry (t ++ "-" ++ str) = some e ∨
          (registry (t ++ "-" ++ str) = none ∧
            commit_emoji str = some e))) ∨
      (∃ os, o = some os ∧
        ∃ c ∈ (rustSplit ':' os).filter (fun x => x ≠ ""),
          registry c = some e) := by
  unfold formatEmojiSet
  rw [mem_otherStep, mem_scopeStep, mem_addStatic, mem_breakStep]
  simp only [List.not_mem_nil, false_or, or_assoc]

theorem joinSpace_mem_split {a : String} :
    ∀ {l : List String}, a ∈ l → ∃ p q, joinSpace l = p ++ a ++ q := by
  intro l
  induction l with
  | nil => intro h; cases h
  | cons x xs ih =>
    intro h
    cases xs with
    | nil =>
      rcases List.mem_singleton.mp h with rfl
      exact ⟨"", "", by simp [joinSpace]⟩
    | cons y ys =>
      rcases List.mem_cons.mp h with rfl | htail
      · exact ⟨"", " " ++ joinSpace (y :: ys), by
          apply String.ext
          simp [joinSpace, List.append_assoc]⟩
      · rcases ih htail with ⟨p, q, hpq⟩
        exact ⟨x ++ " " ++ p, q, by
          apply String.ext
          simp [joinSpace, hpq, List.append_assoc]⟩

/-- C9: format returns an error exactly when the relative-span computation
(rounding now minus the commit timestamp, abstracted as the spanResult
argument) fails; conventional-parse failures and emoji lookup misses never
produce an error, whatever parser and registry behavior they exhibit. -/
theorem span_error_propagation (parse : String → Option ConvFields)
    (registry : String → Option String) (bold blue : String → String)
    (perm : List String → List String) (spanResult : Option String)
    (message : String) :
    format parse registry bold blue perm spanResult message = none ↔
      spanResult = none := by
  cases spanResult <;> simp [format]

/-- C1 (counterexample): the glyph set of a breaking feat commit joined in
two legitimate hash-set iteration orders — the identity and the reversal,
both permutations of the accumulated set, standing for the iteration
orders of two independently seeded std HashSet instances within one run —
gives two different strings, so identical resolver arguments do not force
an identical ordered result. -/
theorem format_emoji_order_not_reproducible :
    List.Perm
      ((formatEmojiSet sampleRegistry "feat" none none true).reverse)
      (formatEmojiSet sampleRegistry "feat" none none true) ∧
    format_emoji (fun l => l.reverse) sampleRegistry "feat" none none true ≠
      format_emoji (fun l => l) sampleRegistry "feat" none none true := by
  exact ⟨by decide, by decide⟩

/-- C1 (amended): two resolver calls with identical arguments within one
run accumulate the identical glyph set, and their joined glyph sequences
agree up to permutation; only the iteration order of the per-call hash set
may differ, so the space-joined strings agree as glyph multisets rather
than as equal strings. -/
theorem format_emoji_same_set_upto_order
    (perm₁ perm₂ : List String → List String)
    (h₁ : ∀ l, List.Perm (perm₁ l) l) (h₂ : ∀ l, List.Perm (perm₂ l) l)
    (registry : String → Option String) (t : String) (sc o : Option String)
    (b : Bool) :
    List.Perm (perm₁ (formatEmojiSet registry t sc o b))
      (perm₂ (formatEmojiSet registry t sc o b)) ∧
    format_emoji perm₁ registry t sc o b =
      joinSpace (perm₁ (formatEmojiSet registry t sc o b)) :=
  ⟨(h₁ _).trans (h₂ _).symm, rfl⟩

theorem format_emoji_same_set_upto_order_witness :
    List.Perm
      ((fun l : List String => l.reverse)
        (formatEmojiSet sampleRegistry "feat" none none true))
      ((fun l : List String => l)
        (formatEmojiSet sampleRegistry "feat" none none true)) ∧
    format_emoji (fun l => l.reverse) sampleRegistry "feat" none none true =
      joinSpace ((fun l : List String => l.reverse)
        (formatEmojiSet sampleRegistry "feat" none none true)) :=
  format_emoji_same_set_upto_order (fun l => l.reverse) (fun l => l)
    (fun l => l.reverse_perm) (fun l => List.Perm.refl l)
    sampleRegistry "feat" none none true

/-- C2: when the combined type-scope shortcode resolves, its glyph is in
the set and the static-table lookup of the scope alone contributes
nothing — every element of the set comes from the breaking step, the
static type lookup, the combined glyph itself, or the free-text step; when
the combined shortcode misses, the scope's static-table glyph is added
whenever the scope is a known key. -/
theorem combined_scope_priority (registry : String → Option String)
    (t str : String) (o : Option String) (b : Bool) :
    (∀ g, registry (t ++ "-" ++ str) = some g →
      g ∈ formatEmojiSet registry t (some str) o b ∧
      ∀ e, e ∈ formatEmojiSet registry t (some str) o b →
        (b = true ∧ registry "boom" = some e) ∨
        commit_emoji t = some e ∨ e = g ∨
        (∃ os, o = some os ∧
          ∃ c ∈ (rustSplit ':' os).filter (fun x => x ≠ ""),
            registry c = some e)) ∧
    (registry (t ++ "-" ++ str) = none →
      ∀ g, commit_emoji str = some g →
        g ∈ formatEmojiSet registry t (some str) o b) := by
  constructor
  · intro g hg
    constructor
    · rw [mem_formatEmojiSet]
      exact Or.inr (Or.inr (Or.inl ⟨str, rfl, Or.inl hg⟩))
    · intro e he
      rw [mem_formatEmojiSet] at he
      rcases he with h | h | ⟨str', hstr', h | h⟩ | h
      · exact Or.inl h
      · exact Or.inr (Or.inl h)
      · cases Option.some.inj hstr'
        exact Or.inr (Or.inr (Or.inl
          (Option.some.inj (hg.symm.trans h)).symm))
      · cases Option.some.inj hstr'
        exact Option.noConfusion (h.1.symm.trans hg)
      · exact Or.inr (Or.inr (Or.inr h))
  · intro hmiss g hgl
    rw [mem_formatEmojiSet]
    exact Or.inr (Or.inr (Or.inl ⟨str, rfl, Or.inr ⟨hmiss, hgl⟩⟩))

theorem combined_scope_priority_witness :
    "🧷" ∈ formatEmojiSet combinedRegistry "fix" (some "docs") none false ∧
    "📚" ∉ formatEmojiSet combinedRegistry "fix" (some "docs") none false :=
  ⟨((combined_scope_priority combinedRegistry "fix" "docs" none false).1
      "🧷" (by decide)).1, by decide⟩

/-- C5: with the breaking flag set and the registry resolving the boom
shortcode to 💥, the resolver's space-joined result contains the breaking
glyph, for every type, scope and description, known keys or not. -/
theorem breaking_glyph_present (perm : List String → List String)
    (hperm : ∀ l, List.Perm (perm l) l)
    (registry : String → Option String)
    (hboom : registry "boom" = some "💥") (t : String)
    (sc : Option String) (d : String) :
    ∃ p q, resolve perm registry t sc true d = p ++ "💥" ++ q := by
  apply joinSpace_mem_split
  rw [(hperm (resolveSet registry t sc true d)).mem_iff]
  rw [resolveSet, mem_formatEmojiSet]
  exact Or.inl ⟨rfl, hboom⟩

theorem breaking_glyph_present_witness :
    ∃ p q,
      resolve (fun l => l) sampleRegistry "zzz" (some "yyy") true
        "plain description" = p ++ "💥" ++ q :=
  breaking_glyph_present (fun l => l) (fun l => List.Perm.refl l)
    sampleRegistry (by decide) "zzz" (some "yyy") "plain description"

/-- C6: resolving a token of the static table with no scope, breaking
false and the empty description yields exactly that token's glyph and
nothing else; a token outside the table contributes no glyph and produces
no error — the result is simply the empty string. -/
theorem static_table_exact (perm : List String → List String)
    (hperm : ∀ l, List.Perm (perm l) l)
    (registry : String → Option String) (t : String) :
    (∀ g, commit_emoji t = some g →
      resolve perm registry t none false "" = g) ∧
    (commit_emoji t = none →
      resolve perm registry t none false "" = "") := by
  constructor
  · intro g hg
    have hset : resolveSet registry t none false "" = [g] := by
      simp [resolveSet, formatEmojiSet, otherStep, otherArg, containsChar,
        scopeStep, breakStep, addStatic, hg, insertEmoji]
    have hp := hperm (resolveSet registry t none false "")
    rw [hset] at hp
    rw [resolve, hset, hp.eq_singleton]
    rfl
  · intro hg
    have hset : resolveSet registry t none false "" = [] := by
      simp [resolveSet, formatEmojiSet, otherStep, otherArg, containsChar,
        scopeStep, breakStep, addStatic, hg]
    have hp := hperm (resolveSet registry t none false "")
    rw [hset] at hp
    rw [resolve, hset, List.perm_nil.mp hp]
    rfl

theorem static_table_exact_witness :
    resolve (fun l => l) sampleRegistry "fix" none false "" = "🐛" :=
  (static_table_exact (fun l => l) (fun l => List.Perm.refl l)
    sampleRegistry "fix").1 "🐛" (by decide)

/-- C7: free-text extraction runs exactly when the description contains a
colon — in that case every nonempty colon-separated segment the registry
resolves contributes its glyph; a description without a colon contributes
nothing beyond the type, scope and breaking steps. -/
theorem free_text_extraction (registry : String → Option String)
    (t : String) (sc : Option String) (b : Bool) (d : String) :
    (containsChar d ':' = true →
      ∀ c ∈ (rustSplit ':' d).filter (fun x => x ≠ ""),
        ∀ g, registry c = some g → g ∈ resolveSet registry t sc b d) ∧
    (containsChar d ':' = false →
      resolveSet registry t sc b d = formatEmojiSet registry t sc none b) := by
  constructor
  · intro hcolon c hc g hg
    rw [resolveSet, mem_formatEmojiSet]
    exact Or.inr (Or.inr (Or.inr ⟨d, by rw [otherArg, hcolon]; rfl,
      c, hc, hg⟩))
  · intro hcolon
    rw [resolveSet, otherArg, hcolon]
    rfl

theorem free_text_extraction_witness :
    "🐛" ∈ resolveSet sampleRegistry "chore" none false "foo:bug:bar" ∧
    "🔧" ∈ resolveSet sampleRegistry "chore" none false "foo:bug:bar" ∧
    resolveSet sampleRegistry "chore" none false "no colon here" =
      formatEmojiSet sampleRegistry "chore" none none false :=
  ⟨(free_text_extraction sampleRegistry "chore" none false
      "foo:bug:bar").1 (by decide) "bug" (by decide) "🐛" (by decide),
   by decide,
   (free_text_extraction sampleRegistry "chore" none false
      "no colon here").2 (by decide)⟩

/-- C4: when conventional parsing fails, or parsing succeeds but the
resolver yields the empty string, the text format composes before the time
suffix is the raw unmodified message, with no synthesized header. -/
theorem raw_fallback (parse : String → Option ConvFields)
    (registry : String → Option String) (bold blue : String → String)
    (perm : List String → List String) (m : String) :
    (parse m = none →
      composeText parse registry bold blue perm m = m) ∧
    (∀ cc, parse m = some cc →
      format_emoji perm registry cc.type_ cc.scope (otherArg cc.description)
        cc.breaking = "" →
      composeText parse registry bold blue perm m = m) := by
  constructor
  · intro h
    simp [composeText, h]
  · intro cc h hemoji
    simp [composeText, h, hemoji]

theorem raw_fallback_witness :
    composeText parseZzz sampleRegistry (fun x => x) (fun x => x)
      (fun l => l) "zzz: plain description" = "zzz: plain description" ∧
    composeText parseNone sampleRegistry (fun x => x) (fun x => x)
      (fun l => l) "Merge pull request #1" = "Merge pull request #1" :=
  ⟨(raw_fallback parseZzz sampleRegistry (fun x => x) (fun x => x)
      (fun l => l) "zzz: plain description").2
      ⟨"zzz", none, false, "plain description"⟩ rfl (by decide),
   (raw_fallback parseNone sampleRegistry (fun x => x) (fun x => x)
      (fun l => l) "Merge pull request #1").1 rfl⟩

theorem data_mk (l : List Char) : (String.mk l).data = l := rfl

theorem splitChar_ne_nil (sep : Char) (l : List Char) :
    splitChar sep l ≠ [] := by
  induction l with
  | nil => simp [splitChar]
  | cons x xs ih =>
    simp only [splitChar]
    split
    · simp
    · split <;> simp

theorem splitChar_head? (sep : Char) (l : List Char) :
    (splitChar sep l).head? =
      some (l.takeWhile (fun x => x ≠ sep)) := by
  induction l with
  | nil => rfl
  | cons x xs ih =>
    by_cases h : x = sep
    · subst h
      simp [splitChar]
    · simp only [splitChar, if_neg h]
      cases hs : splitChar sep xs with
      | nil => exact absurd hs (splitChar_ne_nil sep xs)
      | cons hd tl =>
        rw [hs] at ih
        simp only [List.head?_cons, Option.some.injEq] at ih
        simp [List.takeWhile_cons, h, ih]

theorem splitChar_two_le_length (sep : Char) (l : List Char)
    (h : sep ∈ l) : 2 ≤ (splitChar sep l).length := by
  induction l with
  | nil => cases h
  | cons x xs ih =>
    by_cases hx : x = sep
    · subst hx
      rw [splitChar, if_pos rfl]
      have h1 : splitChar x xs ≠ [] := splitChar_ne_nil x xs
      have h2 : 0 < (splitChar x xs).length := List.length_pos.mpr h1
      simp only [List.length_cons]
      omega
    · have hmem : sep ∈ xs := by
        rcases List.mem_cons.mp h with h' | h'
        · exact absurd h'.symm hx
        · exact h'
      simp only [splitChar, if_neg hx]
      cases hs : splitChar sep xs with
      | nil => exact absurd hs (splitChar_ne_nil sep xs)
      | cons hd tl =>
        have := ih hmem
        rw [hs] at this
        simpa using this

theorem splitChar_of_not_mem (sep : Char) (l : List Char)
    (h : sep ∉ l) : splitChar sep l = [l] := by
  induction l with
  | nil => rfl
  | cons x xs ih =>
    have hx : ¬ x = sep := fun he => h (List.mem_cons.mpr (Or.inl he.symm))
    have hxs : sep ∉ xs := fun hm => h (List.mem_cons.mpr (Or.inr hm))
    simp only [splitChar, if_neg hx, ih hxs]

theorem takeWhile_append_of_mem {sep : Char} {A : List Char}
    (h : sep ∈ A) (B : List Char) :
    (A ++ B).takeWhile (fun x => x ≠ sep) =
      A.takeWhile (fun x => x ≠ sep) := by
  induction A with
  | nil => cases h
  | cons x xs ih =>
    by_cases hx : x = sep
    · subst hx
      simp
    · have hmem : sep ∈ xs := by
        rcases List.mem_cons.mp h with h' | h'
        · exact absurd h'.symm hx
        · exact h'
      have hp : decide (x ≠ sep) = true := by simp [hx]
      rw [List.cons_append, List.takeWhile_cons, List.takeWhile_cons,
        hp, ih hmem]

theorem dropWhile_append_of_ne_nil {p : Char → Bool} {A : List Char}
    (h : A.dropWhile p ≠ []) (B : List Char) :
    (A ++ B).dropWhile p = A.dropWhile p ++ B := by
  induction A with
  | nil => simp at h
  | cons x xs ih =>
    by_cases hx : p x
    · rw [List.cons_append, List.dropWhile_cons_of_pos hx,
        List.dropWhile_cons_of_pos hx]
      rw [List.dropWhile_cons_of_pos hx] at h
      exact ih h
    · rw [List.cons_append, List.dropWhile_cons_of_neg hx,
        List.dropWhile_cons_of_neg hx, List.cons_append]

theorem head?_dropLast_of_two_le {α : Type} (l : List α)
    (h : 2 ≤ l.length) : l.dropLast.head? = l.head? := by
  cases l with
  | nil => simp at h
  | cons a t =>
    cases t with
    | nil => simp at h
    | cons b t' => simp

theorem rustTrimLeft_eq_self (s : String)
    (h : ∀ c, s.data.head? = some c → isRustWs c = false) :
    rustTrimLeft s = s := by
  apply String.ext
  cases hd : s.data with
  | nil => simp [rustTrimLeft, hd]
  | cons x xs =>
    have hx : isRustWs x = false := h x (by rw [hd]; rfl)
    simp [rustTrimLeft, hd, hx]

theorem rustTrimRight_eq_self (s : String) (c : Char)
    (hc : s.data.getLast? = some c) (hw : isRustWs c = false) :
    rustTrimRight s = s := by
  apply String.ext
  have hrev : s.data.reverse.head? = some c := by
    rw [List.head?_reverse]
    exact hc
  cases hr : s.data.reverse with
  | nil =>
    have : s.data = [] := List.reverse_eq_nil_iff.mp hr
    simp [rustTrimRight, this]
  | cons x xs =>
    have hx : x = c := by
      rw [hr] at hrev
      exact Option.some.inj hrev
    subst hx
    simp only [rustTrimRight, data_mk]
    rw [hr, List.dropWhile_cons_of_neg (by simp [hw]), ← hr,
      List.reverse_reverse]

theorem rustTrimLeft_append (m sfx : String)
    (hne : (rustTrimLeft m).data ≠ []) :
    rustTrimLeft (m ++ sfx) = rustTrimLeft m ++ sfx := by
  apply String.ext
  simp only [rustTrimLeft, data_mk, String.data_append]
  exact dropWhile_append_of_ne_nil hne sfx.data

theorem timeSuffix_getLast (sp : String) :
    (timeSuffix sp).data.getLast? = some ')' := by
  rw [timeSuffix, String.data_append,
    List.getLast?_append_of_ne_nil _ (by simp [String.data])]
  rfl

theorem rustTrim_append_of_nl (m sfx : String)
    (hnl : '\n' ∈ (rustTrimLeft m).data)
    (hlast : sfx.data.getLast? = some ')') :
    rustTrim (m ++ sfx) = rustTrimLeft m ++ sfx := by
  have hne : (rustTrimLeft m).data ≠ [] := by
    intro hnil
    rw [hnil] at hnl
    cases hnl
  have hsfx : sfx.data ≠ [] := by
    intro hnil
    rw [hnil] at hlast
    cases hlast
  rw [rustTrim, rustTrimLeft_append m sfx hne]
  apply rustTrimRight_eq_self _ ')'
  · rw [String.data_append]
    rw [List.getLast?_append_of_ne_nil _ hsfx]
    exact hlast
  · decide

theorem rustLines_head_of_mem (s : String) (h : '\n' ∈ s.data) :
    (rustLines s).headD "" =
      String.mk (stripCR (s.data.takeWhile (fun x => x ≠ '\n'))) := by
  unfold rustLines
  have h2 : 2 ≤ (splitChar '\n' s.data).length :=
    splitChar_two_le_length '\n' s.data h
  have hh : (splitChar '\n' s.data).head? =
      some (s.data.takeWhile (fun x => x ≠ '\n')) :=
    splitChar_head? '\n' s.data
  by_cases hlast : (splitChar '\n' s.data).getLast? = some ([] : List Char)
  · rw [if_pos hlast, List.headD_eq_head?_getD, List.head?_map,
      head?_dropLast_of_two_le _ h2, hh]
    rfl
  · rw [if_neg hlast, List.headD_eq_head?_getD, List.head?_append,
      List.head?_map, head?_dropLast_of_two_le _ h2, hh]
    rfl

theorem rustLines_head_of_no_nl (s : String) (hne : s.data ≠ [])
    (h : '\n' ∉ s.data) : (rustLines s).headD "" = s := by
  unfold rustLines
  rw [splitChar_of_not_mem '\n' s.data h]
  rw [if_neg (by simp [hne])]
  simp

theorem composeText_eq_of_fallback (parse : String → Option ConvFields)
    (registry : String → Option String) (bold blue : String → String)
    (perm : List String → List String) (m : String)
    (h : parse m = none ∨
      ∃ cc, parse m = some cc ∧
        format_emoji perm registry cc.type_ cc.scope
          (otherArg cc.description) cc.breaking = "") :
    composeText parse registry bold blue perm m = m := by
  rcases h with h | ⟨cc, h, hemoji⟩
  · simp [composeText, h]
  · simp [composeText, h, hemoji]

theorem format_span_independent (parse : String → Option ConvFields)
    (registry : String → Option String) (bold blue : String → String)
    (perm : List String → List String) (m : String)
    (hcomp : composeText parse registry bold blue perm m = m)
    (hnl : '\n' ∈ (rustTrimLeft m).data)
    (s s' : String) :
    format parse registry bold blue perm (some s) m =
      format parse registry bold blue perm (some s') m := by
  have key : ∀ sp : String,
      rustFirstLineD
        (composeText parse registry bold blue perm m ++ timeSuffix sp) =
      String.mk (stripCR
        ((rustTrimLeft m).data.takeWhile (fun x => x ≠ '\n'))) := by
    intro sp
    rw [hcomp, rustFirstLineD,
      rustTrim_append_of_nl m (timeSuffix sp) hnl (timeSuffix_getLast sp)]
    have hmem : '\n' ∈ (rustTrimLeft m ++ timeSuffix sp).data := by
      rw [String.data_append]
      exact List.mem_append_left _ hnl
    rw [rustLines_head_of_mem _ hmem, String.data_append,
      takeWhile_append_of_mem hnl]
  simp only [format, key s, key s']

/-- C3 (counterexample): the message consisting of a newline and then abc
spans two lines and takes the raw-fallback path, yet after trimming it
collapses to one line, so the time suffix does appear in the final
output. -/
theorem multiline_message_keeps_suffix :
    parseNone "\nabc" = none ∧
    rustLines "\nabc" = ["", "abc"] ∧
    format parseNone sampleRegistry (fun x => x) (fun x => x) (fun l => l)
      (some "7 hours") "\nabc" = some "abc (7 hours ago)" :=
  ⟨rfl, by decide, by decide⟩

/-- C3 (amended): format appends the time suffix to the full composed
text, then trims, then keeps the first line; consequently, for every
message taking the raw-fallback path — conventional parsing fails, or it
succeeds but the resolver yields no glyph — that still contains a newline
after its leading whitespace is removed, the time suffix never appears in
the final output (the output does not depend on the span string at all).
A multi-line message whose newlines all lie in its leading whitespace
collapses to a single line after trimming and keeps the suffix. -/
theorem suffix_append_then_truncate (parse : String → Option ConvFields)
    (registry : String → Option String) (bold blue : String → String)
    (perm : List String → List String) (s m : String) :
    format parse registry bold blue perm (some s) m =
      some (rustFirstLineD
        (composeText parse registry bold blue perm m ++ timeSuffix s)) ∧
    (parse m = none ∨
      (∃ cc, parse m = some cc ∧
        format_emoji perm registry cc.type_ cc.scope
          (otherArg cc.description) cc.breaking = "") →
      containsChar (rustTrimLeft m) '\n' = true →
      ∀ s', format parse registry bold blue perm (some s) m =
        format parse registry bold blue perm (some s') m) := by
  constructor
  · rfl
  · intro hfb hnl s'
    have hmem : '\n' ∈ (rustTrimLeft m).data := by
      rw [containsChar] at hnl
      exact List.elem_iff.mp hnl
    exact format_span_independent parse registry bold blue perm m
      (composeText_eq_of_fallback parse registry bold blue perm m hfb)
      hmem s s'

theorem suffix_append_then_truncate_witness :
    (format parseNone sampleRegistry (fun x => x) (fun x => x) (fun l => l)
      (some "1 hour") "abc\ndef" =
    format parseNone sampleRegistry (fun x => x) (fun x => x) (fun l => l)
      (some "2 hours") "abc\ndef") ∧
    (format parseZzzBody sampleRegistry (fun x => x) (fun x => x)
      (fun l => l) (some "1 hour") "zzz: x\n\nbody" =
    format parseZzzBody sampleRegistry (fun x => x) (fun x => x)
      (fun l => l) (some "2 hours") "zzz: x\n\nbody") :=
  ⟨(suffix_append_then_truncate parseNone sampleRegistry (fun x => x)
      (fun x => x) (fun l => l) "1 hour" "abc\ndef").2 (Or.inl rfl)
      (by decide) "2 hours",
   (suffix_append_then_truncate parseZzzBody sampleRegistry (fun x => x)
      (fun x => x) (fun l => l) "1 hour" "zzz: x\n\nbody").2
      (Or.inr ⟨⟨"zzz", none, false, "x"⟩, rfl, by decide⟩)
      (by decide) "2 hours"⟩

/-- C10 (counterexample): the message consisting of a bare newline ends
with a trailing newline and takes the raw-fallback path, yet the final
output is exactly the parenthesized time suffix: leading-whitespace
trimming consumes the whole message, so the suffix's line becomes the
first line. -/
theorem newline_only_message_keeps_suffix :
    parseNone "\n" = none ∧
    "\n".data.getLast? = some '\n' ∧
    format parseNone sampleRegistry (fun x => x) (fun x => x) (fun l => l)
      (some "7 hours") "\n" = some "(7 hours ago)" :=
  ⟨rfl, by decide, by decide⟩

/-- C10 (amended): for every message taking the raw-fallback path —
conventional parsing fails, or it succeeds but the resolver yields no
glyph — that ends with a trailing newline and contains at least one
non-whitespace character, the time suffix never appears in the final
output — the output does not depend on the span string — because the
suffix is appended after the trailing newline and first-line truncation
removes it.  An all-whitespace message ending in a newline instead trims
away entirely and keeps the suffix. -/
theorem trailing_newline_drops_suffix (parse : String → Option ConvFields)
    (registry : String → Option String) (bold blue : String → String)
    (perm : List String → List String) (m : String)
    (hfb : parse m = none ∨
      ∃ cc, parse m = some cc ∧
        format_emoji perm registry cc.type_ cc.scope
          (otherArg cc.description) cc.breaking = "")
    (hend : m.data.getLast? = some '\n')
    (hnws : ∃ c ∈ m.data, isRustWs c = false) (s s' : String) :
    format parse registry bold blue perm (some s) m =
      format parse registry bold blue perm (some s') m := by
  apply format_span_independent parse registry bold blue perm m
    (composeText_eq_of_fallback parse registry bold blue perm m hfb) _ s s'
  have hne : (rustTrimLeft m).data ≠ [] := by
    simp only [rustTrimLeft, data_mk]
    intro hnil
    rcases hnws with ⟨c, hc, hw⟩
    have := List.dropWhile_eq_nil_iff.mp hnil c hc
    rw [hw] at this
    cases this
  have hsuf : (rustTrimLeft m).data <:+ m.data := by
    simp only [rustTrimLeft, data_mk]
    exact List.dropWhile_suffix isRustWs
  rcases hsuf with ⟨pre, hpre⟩
  have hlast : (rustTrimLeft m).data.getLast? = some '\n' := by
    rw [← List.getLast?_append_of_ne_nil pre hne, hpre]
    exact hend
  exact List.mem_of_getLast?_eq_some hlast

theorem trailing_newline_drops_suffix_witness :
    (format parseNone sampleRegistry (fun x => x) (fun x => x) (fun l => l)
      (some "1 hour") "abc\n" =
    format parseNone sampleRegistry (fun x => x) (fun x => x) (fun l => l)
      (some "2 hours") "abc\n") ∧
    (format parseZzzBody sampleRegistry (fun x => x) (fun x => x)
      (fun l => l) (some "1 hour") "zzz: x\n\nbody\n" =
    format parseZzzBody sampleRegistry (fun x => x) (fun x => x)
      (fun l => l) (some "2 hours") "zzz: x\n\nbody\n") :=
  ⟨trailing_newline_drops_suffix parseNone sampleRegistry (fun x => x)
      (fun x => x) (fun l => l) "abc\n" (Or.inl rfl) (by decide)
      ⟨'a', by decide, by decide⟩ "1 hour" "2 hours",
   trailing_newline_drops_suffix parseZzzBody sampleRegistry (fun x => x)
      (fun x => x) (fun l => l) "zzz: x\n\nbody\n"
      (Or.inr ⟨⟨"zzz", none, false, "x"⟩, rfl, by decide⟩) (by decide)
      ⟨'z', by decide, by decide⟩ "1 hour" "2 hours"⟩

/-- C8: a conventional commit with type feat, scope api, breaking false,
description add pagination and no combined feat-api registry entry renders
as the blue-emphasized header with the bold scope, the sparkles glyph, the
description and the time suffix — nothing is trimmed or truncated,
provided the styling functions introduce no newline, the styled header is
nonempty and does not start with whitespace, and the span string contains
no newline (all true of ANSI-styled text and jiff span output). -/
theorem end_to_end_feat_api (parse : String → Option ConvFields)
    (registry : String → Option String) (bold blue : String → String)
    (perm : List String → List String) (s m : String)
    (hperm : ∀ l, List.Perm (perm l) l)
    (hparse : parse m = some ⟨"feat", some "api", false, "add pagination"⟩)
    (hreg : registry ("feat" ++ "-" ++ "api") = none)
    (hH : '\n' ∉ (blue ("feat" ++ "(" ++ bold "api" ++ ")" ++ ":")).data)
    (hHne : (blue ("feat" ++ "(" ++ bold "api" ++ ")" ++ ":")).data ≠ [])
    (hHhead : ∀ c,
      (blue ("feat" ++ "(" ++ bold "api" ++ ")" ++ ":")).data.head? =
        some c → isRustWs c = false)
    (hs : '\n' ∉ s.data) :
    format parse registry bold blue perm (some s) m =
      some (blue ("feat" ++ "(" ++ bold "api" ++ ")" ++ ":") ++ " " ++
        "✨" ++ " " ++ "add pagination" ++ timeSuffix s) := by
  have h1 : breakStep registry false [] = [] := rfl
  have h2 : addStatic [] "feat" = ["✨"] := by decide
  have h3 : scopeStep registry "feat" (some "api") ["✨"] = ["✨"] := by
    show (match registry ("feat" ++ "-" ++ "api") with
          | some g => insertEmoji ["✨"] g
          | none => addStatic ["✨"] "api") = ["✨"]
    rw [hreg]
    decide
  have h4 : otherArg "add pagination" = none := rfl
  have hset : formatEmojiSet registry "feat" (some "api")
      (otherArg "add pagination") false = ["✨"] := by
    rw [formatEmojiSet, h4]
    show scopeStep registry "feat" (some "api")
      (addStatic (breakStep registry false []) "feat") = ["✨"]
    rw [h1, h2]
    exact h3
  have hemoji : format_emoji perm registry "feat" (some "api")
      (otherArg "add pagination") false = "✨" := by
    rw [format_emoji, hset, (hperm ["✨"]).eq_singleton]
    rfl
  have hhdr : headerOf bold ⟨"feat", some "api", false, "add pagination"⟩
      ++ ":" = "feat" ++ "(" ++ bold "api" ++ ")" ++ ":" := by
    apply String.ext
    simp [headerOf, List.append_assoc]
  have hcomp : composeText parse registry bold blue perm m =
      blue ("feat" ++ "(" ++ bold "api" ++ ")" ++ ":") ++ " " ++ "✨" ++
        " " ++ "add pagination" := by
    simp only [composeText, hparse]
    rw [hemoji, if_neg (by decide), hhdr]
  have hT : composeText parse registry bold blue perm m ++ timeSuffix s =
      blue ("feat" ++ "(" ++ bold "api" ++ ")" ++ ":") ++ " " ++ "✨" ++
        " " ++ "add pagination" ++ timeSuffix s := by
    rw [hcomp]
  rw [format]
  show some (rustFirstLineD
      (composeText parse registry bold blue perm m ++ timeSuffix s)) = _
  rw [hT]
  congr 1
  set T := blue ("feat" ++ "(" ++ bold "api" ++ ")" ++ ":") ++ " " ++ "✨"
    ++ " " ++ "add pagination" ++ timeSuffix s with hTdef
  have hTdata : T.data =
      (blue ("feat" ++ "(" ++ bold "api" ++ ")" ++ ":")).data ++
        (" " ++ "✨" ++ " " ++ "add pagination").data ++
        (timeSuffix s).data := by
    rw [hTdef]
    simp [List.append_assoc]
  have hTne : T.data ≠ [] := by
    rw [hTdata]
    intro hnil
    rcases List.append_eq_nil.mp hnil with ⟨hab, _⟩
    rcases List.append_eq_nil.mp hab with ⟨ha, _⟩
    exact hHne ha
  have hTnl : '\n' ∉ T.data := by
    rw [hTdata]
    intro hmem
    rcases List.mem_append.mp hmem with hab | hc
    · rcases List.mem_append.mp hab with ha | hb
      · exact hH ha
      · revert hb
        decide
    · rw [timeSuffix, String.data_append, String.data_append] at hc
      rcases List.mem_append.mp hc with hd | he
      · rcases List.mem_append.mp hd with hf | hg
        · revert hf
          decide
        · exact hs hg
      · revert he
        decide
  have hTlast : T.data.getLast? = some ')' := by
    rw [hTdef]
    show ((blue ("feat" ++ "(" ++ bold "api" ++ ")" ++ ":") ++ " " ++ "✨"
      ++ " " ++ "add pagination") ++ timeSuffix s).data.getLast? = some ')'
    rw [String.data_append, List.getLast?_append_of_ne_nil _ (by
      intro hnil
      have := timeSuffix_getLast s
      rw [hnil] at this
      cases this)]
    exact timeSuffix_getLast s
  have hThead : ∀ c, T.data.head? = some c → isRustWs c = false := by
    intro c hc
    cases hh : (blue ("feat" ++ "(" ++ bold "api" ++ ")" ++ ":")).data with
    | nil => exact absurd hh hHne
    | cons x xs =>
      have hx : T.data.head? = some x := by
        rw [hTdata, hh]
        rfl
      have hxc : x = c := Option.some.inj (hx.symm.trans hc)
      subst hxc
      exact hHhead x (by rw [hh]; rfl)
  rw [rustFirstLineD, rustTrim, rustTrimLeft_eq_self T hThead,
    rustTrimRight_eq_self T ')' hTlast (by decide),
    rustLines_head_of_no_nl T hTne hTnl]

theorem end_to_end_feat_api_witness :
    format parseFeatApi (fun _ => none) (fun x => x) (fun x => x)
      (fun l => l) (some "3 hours") "feat(api): add pagination" =
      some "feat(api): ✨ add pagination (3 hours ago)" :=
  (end_to_end_feat_api parseFeatApi (fun _ => none) (fun x => x)
    (fun x => x) (fun l => l) "3 hours" "feat(api): add pagination"
    (fun l => List.Perm.refl l) rfl rfl (by decide) (by decide)
    (by
      intro c hc
      have hx : some 'f' = some c := hc
      cases Option.some.inj hx
      decide)
    (by decide)).trans (by decide)

end DevmojiLog
